import Mathlib

/-!
Verification development for the shaha hash-database storage engine.

The Rust sources are shallowly embedded: bytes are `Nat` (0–255 where it
matters), byte strings are `List Nat`, fallible operations return
`Except`/`Option`, and the stateful writer is explicit state passing.
File names referenced below are the Rust sources the definitions embed.
-/

namespace Shaha

/-- Lexicographic order on byte strings, as Rust's derived `Ord` on `&[u8]`
(first differing byte decides; a strict prefix is smaller). -/
def lexLe : List Nat → List Nat → Bool
  | [], _ => true
  | _ :: _, [] => false
  | a :: as, b :: bs => decide (a < b) || (a == b && lexLe as bs)

/-- Rust `slice::starts_with`: `h` starts with `p`. -/
def startsWithBytes : (p h : List Nat) → Bool
  | [], _ => true
  | _ :: _, [] => false
  | a :: as, b :: bs => a == b && startsWithBytes as bs

/-- The record model of `src/storage/mod.rs` (`HashRecord`). -/
structure HashRecord where
  hash : List Nat
  preimage : String
  algorithm : String
  sources : List String
deriving DecidableEq, Repr

/-! ### Membership filter (spec §4.2, component C2)

Modelled from the spec: the filter internals live in the external
`bloomfilter` crate (`Bloom`), which is not part of this repository's
sources.  Following §4.2, construction derives a bit count and a
hash-function count from `expected_items` and the fixed 0.01
false-positive target; `insert`/`probe` address `kNum` bit positions
produced by two seeded hash functions (Kirsch–Mitzenmacher double
hashing); serialization is `(bitmap, item_count, two seed pairs)` and
deserialization reconstructs a functionally identical filter.  The
bitmap is kept sparsely as the list of set bit positions (a faithful,
injective re-coding of the packed byte bitmap). -/

/-- 2^64: the seed halves are 64-bit words. -/
def U64 : Nat := 18446744073709551616

/-- Modelled from the spec: hash-function count derived from the fixed
0.01 false-positive target (§4.2). -/
def BLOOM_K : Nat := 7

/-- Modelled from the spec: bits per expected item for the 0.01 target. -/
def BITS_PER_ITEM : Nat := 10

/-- The raw bitmap data carried by `shaha:bloom_bitmap` (sparse coding). -/
structure BloomBitmap where
  numBits : Nat
  setBits : List Nat
deriving DecidableEq, Repr

/-- The membership filter (models `bloomfilter::Bloom<Vec<u8>>`). -/
structure Bloom where
  bitmap : BloomBitmap
  kNum : Nat
  key0 : Nat × Nat
  key1 : Nat × Nat
deriving DecidableEq, Repr

/-- Modelled from the spec: one seeded 64-bit hash of a byte string
(stands in for the crate's SipHash keyed by one seed pair). -/
def bloomMix (key : Nat × Nat) (item : List Nat) : Nat :=
  item.foldl (fun acc b => ((acc + b + 1) * 6364136223846793005) % U64)
    ((key.1 * 4294967296 + key.2 + 1469598103934665603) % U64)

/-- Bit position probed for `item` by hash function number `i`. -/
def bloomIndex (bl : Bloom) (item : List Nat) (i : Nat) : Nat :=
  (bloomMix bl.key0 item + i * bloomMix bl.key1 item) % bl.bitmap.numBits

/-- `Bloom::set`: mark all `kNum` positions of `item`. -/
def bloomSet (bl : Bloom) (item : List Nat) : Bloom :=
  { bl with bitmap := { bl.bitmap with
      setBits := bl.bitmap.setBits ++ (List.range bl.kNum).map (bloomIndex bl item) } }

/-- `Bloom::check`: `true` = maybe present, `false` = definitely absent. -/
def bloomCheck (bl : Bloom) (item : List Nat) : Bool :=
  (List.range bl.kNum).all fun i => decide (bloomIndex bl item i ∈ bl.bitmap.setBits)

/-- `Bloom::new_for_fp_rate(items, 0.01)` with the randomly chosen seed
pairs passed explicitly (the RNG is modelled as a parameter). -/
def mkBloom (items : Nat) (k0 k1 : Nat × Nat) : Bloom :=
  { bitmap := { numBits := BITS_PER_ITEM * items, setBits := [] }
    kNum := BLOOM_K
    key0 := (k0.1 % U64, k0.2 % U64)
    key1 := (k1.1 % U64, k1.2 % U64) }

/-- Modelled from the spec: `Bloom::from_existing(bitmap, bits, count, keys)`
(§4.2: deserialization reconstructs a functionally identical filter; the
hash-function count is re-derived from the fixed false-positive target,
the bitmap and seeds are restored as stored). -/
def bloomFromExisting (bm : BloomBitmap) (itemsCount : Nat)
    (keys : (Nat × Nat) × (Nat × Nat)) : Bloom :=
  { bitmap := bm, kNum := BLOOM_K, key0 := keys.1, key1 := keys.2 }

/-! ### File-level metadata (`src/storage/parquet.rs`)

Key/value metadata is modelled semi-structurally: injective wire
encodings (decimal rendering, comma joining of comma-free tokens,
base64) are modelled as the identity, keeping their failure modes:
`Base64Blob.malformed` is a value whose base64 decoding fails, an absent
key is `none`, and the `u64`/`u32` parse bounds are kept explicit. -/

/-- A `shaha:bloom_bitmap` metadata value: base64 that decodes to a
bitmap, or a malformed value whose decoding errors. -/
inductive Base64Blob where
  | wellFormed (bitmap : BloomBitmap)
  | malformed
deriving DecidableEq, Repr

/-- The `shaha:*` key/value metadata of an artifact (`none` = key absent). -/
structure FileMeta where
  totalRecords : Option Nat := none
  algorithms : Option (List String) := none
  sourcesMeta : Option (List String) := none
  sourceHashes : Option (List String) := none
  bloomBitmap : Option Base64Blob := none
  bloomKeys : Option (List Nat) := none
  bloomItems : Option Nat := none
deriving DecidableEq, Repr

/-- `BASE64.decode` on a stored bitmap value. -/
def decodeBase64 : Base64Blob → Except Unit BloomBitmap
  | .wellFormed bm => .ok bm
  | .malformed => .error ()

/-- The `shaha:bloom_keys` parse of `load_bloom_filter`: split on commas,
keep the tokens that parse as `u64`, require exactly four. -/
def parseBloomKeys (xs : List Nat) : Option ((Nat × Nat) × (Nat × Nat)) :=
  match xs.filter (fun n => decide (n < U64)) with
  | [a, b, c, d] => some ((a, b), (c, d))
  | _ => none

/-- `ParquetStorage::load_bloom_filter` (parquet.rs:204-256): base64
failure propagates as an error; a missing or malformed key yields
`ok none`; otherwise the filter is reconstructed via `from_existing`. -/
def loadBloomFilter (m : FileMeta) : Except Unit (Option Bloom) :=
  match m.bloomBitmap with
  | none => .ok none
  | some .malformed => .error ()
  | some (.wellFormed bm) =>
    match m.bloomKeys.bind parseBloomKeys,
          m.bloomItems.bind (fun n => if n < 4294967296 then some n else none) with
    | some ks, some cnt => .ok (some (bloomFromExisting bm cnt ks))
    | _, _ => .ok none

/-! ### Local store write side (`src/storage/parquet.rs`) -/

/-- Insertion into a de-duplicating collection (models a `HashSet`
deterministically, in insertion order). -/
def insertOnce (l : List String) (s : String) : List String :=
  if l.contains s then l else l ++ [s]

/-- `WriteStats` (parquet.rs:38-44). -/
structure WriteStats where
  totalRecords : Nat
  algorithms : List String
  sources : List String
  sourceHashes : List String
  bloom : Bloom
deriving Repr

/-- `WriteStats::with_capacity` (parquet.rs:47-56): the bloom capacity is
floored at `DEFAULT_BLOOM_CAPACITY = 1_000_000`; the crate's random seeds
are threaded as parameters. -/
def WriteStats.withCapacity (expected : Nat) (k0 k1 : Nat × Nat) : WriteStats :=
  { totalRecords := 0, algorithms := [], sources := [], sourceHashes := []
    bloom := mkBloom (max expected 1000000) k0 k1 }

/-- `ParquetStorage::collect_stats` (parquet.rs:139-150); the single Rust
loop over `records` is modelled componentwise (same final state). -/
def collectStats (ws : WriteStats) (records : List HashRecord) : WriteStats :=
  { totalRecords := ws.totalRecords + records.length
    algorithms := records.foldl (fun acc r => insertOnce acc r.algorithm) ws.algorithms
    sources := records.foldl (fun acc r => r.sources.foldl insertOnce acc) ws.sources
    sourceHashes := ws.sourceHashes
    bloom := records.foldl (fun b r => bloomSet b r.hash) ws.bloom }

/-- The `ParquetStorage` writer state: `groups` are the record batches
written so far (each non-empty `write_batch` flushes one batch to the
lazily created writer); `groups = []` means the writer — and hence the
file — was never created. -/
structure ParquetState where
  stats : WriteStats
  groups : List (List HashRecord)
deriving Repr

/-- `ParquetStorage::with_expected_capacity` (parquet.rs:70-86). -/
def initParquet (expected : Nat) (k0 k1 : Nat × Nat) : ParquetState :=
  { stats := .withCapacity expected k0 k1, groups := [] }

/-- `ParquetStorage::write_batch` (parquet.rs:398-424): empty input is a
no-op; otherwise stats are collected and the batch appended. -/
def writeBatch (st : ParquetState) (records : List HashRecord) : ParquetState :=
  if records.isEmpty then st
  else { stats := collectStats st.stats records, groups := st.groups ++ [records] }

/-- A sequence of `write_batch` calls. -/
def writeAll (st : ParquetState) (batches : List (List HashRecord)) : ParquetState :=
  batches.foldl writeBatch st

/-- `ParquetStorage::add_source_hash` (parquet.rs:274-276). -/
def addSourceHash (st : ParquetState) (h : String) : ParquetState :=
  { st with stats := { st.stats with sourceHashes := insertOnce st.stats.sourceHashes h } }

/-- The metadata emitted by `ParquetStorage::finish` (parquet.rs:426-474). -/
def buildMeta (ws : WriteStats) : FileMeta :=
  { totalRecords := some ws.totalRecords
    algorithms := some ws.algorithms
    sourcesMeta := some ws.sources
    sourceHashes := if ws.sourceHashes.isEmpty then none else some ws.sourceHashes
    bloomBitmap := some (.wellFormed ws.bloom.bitmap)
    bloomKeys := some [ws.bloom.key0.1, ws.bloom.key0.2, ws.bloom.key1.1, ws.bloom.key1.2]
    bloomItems := some ws.totalRecords }

/-- A finalized on-disk artifact: its row groups and key/value metadata. -/
structure ArtifactFile where
  groups : List (List HashRecord)
  meta : FileMeta
deriving Repr

/-- `ParquetStorage::finish`: if no batch was ever written the writer was
never created and no file exists (`none`); otherwise the writer is closed
with the metadata appended. -/
def finishFile (st : ParquetState) : Option ArtifactFile :=
  if st.groups.isEmpty then none
  else some { groups := st.groups, meta := buildMeta st.stats }

/-! ### Local store read side (`src/storage/parquet.rs`) -/

/-- `ParquetStorage::is_full_hash_length` (parquet.rs:258-260). -/
def isFullHashLength (n : Nat) : Bool := n == 16 || n == 20 || n == 32 || n == 64

/-- `ParquetStorage::prefix_might_be_in_range` (parquet.rs:262-272):
`pref` unchanged is the low bound; the high bound is `pref` right-padded
with `0xFF` to `max (length mx) (length pref)`. -/
def might_be_in_range (pref mn mx : List Nat) : Bool :=
  if pref.isEmpty then true
  else
    lexLe pref mx &&
      lexLe mn (pref ++ List.replicate (max mx.length pref.length - pref.length) 255)

/-- Byte-lexicographic minimum of a non-empty hash list (the writer's
exact row-group statistics for the `hash` column). -/
def lexMinList (h : List Nat) (t : List (List Nat)) : List Nat :=
  t.foldl (fun m x => if lexLe x m then x else m) h

/-- Byte-lexicographic maximum of a non-empty hash list. -/
def lexMaxList (h : List Nat) (t : List (List Nat)) : List Nat :=
  t.foldl (fun m x => if lexLe m x then x else m) h

/-- The per-row-group min/max statistics of the `hash` column
(parquet.rs:496-505 reads them back; `none` models absent statistics). -/
def rgStats (g : List HashRecord) : Option (List Nat × List Nat) :=
  match g.map (fun r => r.hash) with
  | [] => none
  | h :: t => some (lexMinList h t, lexMaxList h t)

/-- Row-group selection (parquet.rs:496-510): absent statistics include
the group (`unwrap_or(true)`), else the range test decides. -/
def includeGroup (pref : List Nat) (g : List HashRecord) : Bool :=
  match rgStats g with
  | some (mn, mx) => might_be_in_range pref mn mx
  | none => true

/-- The algorithm filter of the row scan (parquet.rs:551-554):
a row is kept unless a filter is set and differs. -/
def algoMatch (algo : Option String) (a : String) : Bool :=
  match algo with
  | some f => a == f
  | none => true

/-- `limit.is_some_and(|l| results.len() >= l)` (parquet.rs:563). -/
def limitReached (limit : Option Nat) (len : Nat) : Bool :=
  match limit with
  | some l => decide (l ≤ len)
  | none => false

/-- The row scan of `ParquetStorage::query` (parquet.rs:520-567): rows of
the selected groups in file order; a row failing the byte-prefix test or
the algorithm filter is skipped; after emitting a row the scan stops once
the limit is reached. -/
def scanRows (pref : List Nat) (algo : Option String) (limit : Option Nat) :
    List HashRecord → List HashRecord → List HashRecord
  | [], acc => acc
  | r :: rest, acc =>
    if startsWithBytes pref r.hash then
      if algoMatch algo r.algorithm then
        if limitReached limit (acc ++ [r]).length then acc ++ [r]
        else scanRows pref algo limit rest (acc ++ [r])
      else scanRows pref algo limit rest acc
    else scanRows pref algo limit rest acc

/-- The membership-filter gate of `query` (parquet.rs:481-487): consulted
only for full-hash-length inputs; a load failure or missing filter skips
the gate (`if let Ok(Some(bloom))`); `false` means the query answers
empty at once. -/
def bloomGatePass (m : FileMeta) (pref : List Nat) : Bool :=
  if isFullHashLength pref.length then
    match loadBloomFilter m with
    | .ok (some bl) => bloomCheck bl pref
    | _ => true
  else true

/-- `ParquetStorage::query` (parquet.rs:476-570): missing file is empty;
then the filter gate, the row-group pruning (empty selection answers
empty), then the bounded scan. -/
def queryFile (file : Option ArtifactFile) (pref : List Nat) (algo : Option String)
    (limit : Option Nat) : List HashRecord :=
  match file with
  | none => []
  | some f =>
    if bloomGatePass f.meta pref = false then []
    else if (f.groups.filter (fun g => includeGroup pref g)).isEmpty then []
    else scanRows pref algo limit (f.groups.filter (fun g => includeGroup pref g)).flatten []

/-- `Stats` (`src/storage/mod.rs`); the file size is not modelled (0). -/
structure Stats where
  totalRecords : Nat := 0
  algorithms : List String := []
  sources : List String := []
  fileSizeBytes : Nat := 0
deriving DecidableEq, Repr

/-- `Stats::default()`. -/
def defaultStats : Stats := {}

/-- `ParquetStorage::read_stats_from_metadata` (parquet.rs:152-202):
all three keys must be present. -/
def statsFromMeta (m : FileMeta) : Option Stats :=
  match m.totalRecords, m.algorithms, m.sourcesMeta with
  | some t, some als, some ss => some { totalRecords := t, algorithms := als, sources := ss }
  | _, _, _ => none

/-- `ParquetStorage::scan_stats` (parquet.rs:353-394). -/
def scanStats (groups : List (List HashRecord)) : Stats :=
  { totalRecords := groups.flatten.length
    algorithms := groups.flatten.foldl (fun acc r => insertOnce acc r.algorithm) []
    sources := groups.flatten.foldl (fun acc r => r.sources.foldl insertOnce acc) [] }

/-- `ParquetStorage::stats` (parquet.rs:572-582): a missing file yields
the default stats; else metadata, falling back to a full scan. -/
def statsFile (file : Option ArtifactFile) : Stats :=
  match file with
  | none => defaultStats
  | some f =>
    match statsFromMeta f.meta with
    | some s => s
    | none => scanStats f.groups

/-- `ParquetStorage::for_each_record` (parquet.rs:278-327): all records
in file order (missing file yields nothing), as a list. -/
def forEachRecordList (file : Option ArtifactFile) : List HashRecord :=
  match file with
  | none => []
  | some f => f.groups.flatten

/-! ### Remote store (`src/storage/r2.rs`) -/

/-- The `R2Storage` state: buffered records and the remote object
(`none` = nothing was ever written to the remote). -/
structure R2State where
  pending : List HashRecord
  remoteObject : Option (List HashRecord)
deriving Repr

/-- A fresh remote store (r2.rs:74-111). -/
def r2Init : R2State := { pending := [], remoteObject := none }

/-- `R2Storage::write_batch` (r2.rs:161-164): buffer only. -/
def r2WriteBatch (st : R2State) (records : List HashRecord) : R2State :=
  { st with pending := st.pending ++ records }

/-- A sequence of remote `write_batch` calls. -/
def r2WriteAll (st : R2State) (batches : List (List HashRecord)) : R2State :=
  batches.foldl r2WriteBatch st

/-- `R2Storage::finish` (r2.rs:166-185): nothing buffered means no
remote write at all; otherwise one bulk COPY of the buffer. -/
def r2Finish (st : R2State) : R2State :=
  if st.pending.isEmpty then st
  else { pending := [], remoteObject := some st.pending }

/-- Modelled from the spec: `R2Storage::query` (r2.rs:187-232) delegates
to the embedded SQL engine, whose semantics are external; per §4.5 the
SELECT filters on the hex-prefix and the algorithm and applies `LIMIT n`
(hex encoding of whole bytes is prefix-faithful, so the hex
`starts_with` is byte-level `starts_with`). -/
def r2Query (content : List HashRecord) (pref : List Nat) (algo : Option String)
    (limit : Option Nat) : List HashRecord :=
  match limit with
  | some n => (content.filter (fun r => startsWithBytes pref r.hash && algoMatch algo r.algorithm)).take n
  | none => content.filter (fun r => startsWithBytes pref r.hash && algoMatch algo r.algorithm)

/-! ### Build pipeline (`src/cli/build.rs`) -/

/-- `RecordKey` (build.rs:76). -/
abbrev RecordKey := List Nat × String

/-- The key of a record. -/
def recordKey (r : HashRecord) : RecordKey := (r.hash, r.algorithm)

/-- The `(hash, algorithm)`-keyed accumulator (`HashMap` modelled as an
association list). -/
abbrev RecordMap := List (RecordKey × HashRecord)

/-- `HashMap::remove`: the removed value (if any) and the remaining map. -/
def mapRemove (m : RecordMap) (k : RecordKey) : Option HashRecord × RecordMap :=
  match m with
  | [] => (none, [])
  | (k2, v) :: rest =>
    if k2 = k then (some v, rest)
    else ((mapRemove rest k).1, (k2, v) :: (mapRemove rest k).2)

/-- The source merge of the append path (build.rs:182-187): each new
source tag is appended unless already present in the (growing) list. -/
def mergeNewSources (priorSources newSources : List String) : List String :=
  newSources.foldl (fun acc s => if acc.contains s then acc else acc ++ [s]) priorSources

/-- One step of the append-merge closure (build.rs:177-191): look up the
prior record's key in the accumulator; on a hit, remove it and merge its
sources into the prior record; the (possibly mutated) prior record is
pushed to the output buffer. -/
def appendMergeStep (st : List HashRecord × RecordMap) (record : HashRecord) :
    List HashRecord × RecordMap :=
  match (mapRemove st.2 (recordKey record)).1 with
  | some nr =>
    (st.1 ++ [{ record with sources := mergeNewSources record.sources nr.sources }],
     (mapRemove st.2 (recordKey record)).2)
  | none => (st.1 ++ [record], st.2)

/-- The streaming append-merge over the prior artifact (build.rs:173-194). -/
def appendMerge (priorRecords : List HashRecord) (m : RecordMap) :
    List HashRecord × RecordMap :=
  priorRecords.foldl appendMergeStep ([], m)

/-- build.rs:196-197: the merged prior records followed by the drained
remaining accumulator entries. -/
def buildFinalRecords (priorRecords : List HashRecord) (m : RecordMap) : List HashRecord :=
  (appendMerge priorRecords m).1 ++ (appendMerge priorRecords m).2.map (fun kv => kv.2)

/-- Record comparison of the final sort (build.rs:201):
`a.hash.cmp(&b.hash)` as a `≤` relation. -/
def recLe (a b : HashRecord) : Prop := lexLe a.hash b.hash = true

instance : DecidableRel recLe := fun a b => inferInstanceAs (Decidable (_ = true))

/-- `final_records.sort_by(|a, b| a.hash.cmp(&b.hash))` (build.rs:201).
Rust's `sort_by` is a stable sort; a stable sort by a total preorder is
extensionally unique, so insertion sort is a faithful model. -/
def sortByHash (l : List HashRecord) : List HashRecord :=
  List.insertionSort recLe l

/-- `BATCH_SIZE` (build.rs:16). -/
def BATCH_SIZE : Nat := 100000

/-- `final_records.chunks(BATCH_SIZE)` (build.rs:221). -/
def chunksOf : List HashRecord → List (List HashRecord)
  | [] => []
  | a :: l => (a :: l).take BATCH_SIZE :: chunksOf ((a :: l).drop BATCH_SIZE)
termination_by l => l.length
decreasing_by simp [BATCH_SIZE]; omega

/-- The write phase of the build pipeline (build.rs:199-225, local
target): sort, write in `BATCH_SIZE` chunks, finish. -/
def pipelineWrite (k0 k1 : Nat × Nat) (finalRecords : List HashRecord) : Option ArtifactFile :=
  finishFile (writeAll (initParquet finalRecords.length k0 k1)
    (chunksOf (sortByHash finalRecords)))

/-- The bloom component of `collect_stats` as a fold. -/
def foldBloom (bl : Bloom) (rs : List HashRecord) : Bloom :=
  rs.foldl (fun b r => bloomSet b r.hash) bl

/-- Well-formedness of a filter built by the write path: the spec-derived
hash count and 64-bit seed halves. -/
def BloomWF (bl : Bloom) : Prop :=
  bl.kNum = BLOOM_K ∧ bl.key0.1 < U64 ∧ bl.key0.2 < U64 ∧ bl.key1.1 < U64 ∧ bl.key1.2 < U64

/-- An artifact metadata with the three filter keys removed (a file
carrying no membership filter at all). -/
def stripBloomMeta (m : FileMeta) : FileMeta :=
  { m with bloomBitmap := none, bloomKeys := none, bloomItems := none }

/-! ### Lemmas: lexicographic order -/

theorem lexLe_refl (a : List Nat) : lexLe a a = true := by
  induction a with
  | nil => rfl
  | cons x xs ih => simp [lexLe, ih]

theorem lexLe_total (a b : List Nat) : lexLe a b = true ∨ lexLe b a = true := by
  induction a generalizing b with
  | nil => left; rfl
  | cons x xs ih =>
    cases b with
    | nil => right; rfl
    | cons y ys =>
      rcases Nat.lt_trichotomy x y with h | h | h
      · left; simp [lexLe, h]
      · subst h
        rcases ih ys with h2 | h2
        · left; simp [lexLe, h2]
        · right; simp [lexLe, h2]
      · right; simp [lexLe, h]

theorem lexLe_trans {a b c : List Nat} (h1 : lexLe a b = true) (h2 : lexLe b c = true) :
    lexLe a c = true := by
  induction a generalizing b c with
  | nil => rfl
  | cons x xs ih =>
    cases b with
    | nil => simp [lexLe] at h1
    | cons y ys =>
      cases c with
      | nil => simp [lexLe] at h2
      | cons z zs =>
        simp only [lexLe, Bool.or_eq_true, Bool.and_eq_true, decide_eq_true_eq,
          beq_iff_eq] at h1 h2 ⊢
        rcases h1 with h1 | ⟨rfl, h1⟩
        · rcases h2 with h2 | ⟨rfl, h2⟩
          · exact Or.inl (Nat.lt_trans h1 h2)
          · exact Or.inl h1
        · rcases h2 with h2 | ⟨rfl, h2⟩
          · exact Or.inl h2
          · exact Or.inr ⟨rfl, ih h1 h2⟩

theorem lexLe_append_self (p rest : List Nat) : lexLe p (p ++ rest) = true := by
  induction p with
  | nil => rfl
  | cons x xs ih => simp [lexLe, ih]

theorem lexLe_append_right (p : List Nat) {x y : List Nat} (h : lexLe x y = true) :
    lexLe (p ++ x) (p ++ y) = true := by
  induction p with
  | nil => simpa using h
  | cons a as ih => simp [lexLe, ih]

theorem startsWithBytes_iff (p h : List Nat) :
    startsWithBytes p h = true ↔ ∃ rest, h = p ++ rest := by
  induction p generalizing h with
  | nil => simp [startsWithBytes]
  | cons a as ih =>
    cases h with
    | nil =>
      simp only [startsWithBytes, Bool.false_eq_true, false_iff]
      rintro ⟨rest, hr⟩
      simp at hr
    | cons b bs =>
      simp only [startsWithBytes, Bool.and_eq_true, beq_iff_eq, ih,
        List.cons_append, List.cons_eq_cons]
      constructor
      · rintro ⟨rfl, rest, rfl⟩; exact ⟨rest, rfl, rfl⟩
      · rintro ⟨rest, rfl, rfl⟩; exact ⟨rfl, rest, rfl⟩

theorem startsWithBytes_take (k : Nat) (h : List Nat) :
    startsWithBytes (h.take k) h = true :=
  (startsWithBytes_iff _ _).2 ⟨h.drop k, (List.take_append_drop k h).symm⟩

theorem lexLe_replicate_255 {x : List Nat} {j : Nat}
    (hb : ∀ b ∈ x, b ≤ 255) (hl : x.length ≤ j) :
    lexLe x (List.replicate j 255) = true := by
  induction x generalizing j with
  | nil => rfl
  | cons a as ih =>
    cases j with
    | zero => simp at hl
    | succ j' =>
      have ha : a ≤ 255 := hb a (List.mem_cons_self _ _)
      simp only [List.replicate_succ, lexLe, Bool.or_eq_true, Bool.and_eq_true,
        decide_eq_true_eq, beq_iff_eq]
      rcases Nat.lt_or_eq_of_le ha with h | h
      · exact Or.inl h
      · refine Or.inr ⟨h, ih (fun b hbm => hb b (List.mem_cons_of_mem _ hbm)) ?_⟩
        simpa using Nat.le_of_succ_le_succ (by simpa using hl)

/-- Conservativity of the range test for short-enough rows: a row whose
hash lies between the statistics, starts with the query bytes, and is no
longer than the padded high bound is never in a rejected group. -/
theorem might_be_in_range_of_bounds {pref mn mx h : List Nat}
    (hb : ∀ b ∈ h, b ≤ 255)
    (h1 : lexLe mn h = true) (h2 : lexLe h mx = true)
    (hs : startsWithBytes pref h = true)
    (hlen : h.length ≤ max mx.length pref.length) :
    might_be_in_range pref mn mx = true := by
  obtain ⟨rest, rfl⟩ := (startsWithBytes_iff _ _).1 hs
  cases pref with
  | nil => rfl
  | cons a as =>
    simp only [might_be_in_range, List.isEmpty_cons, Bool.false_eq_true, if_false,
      Bool.and_eq_true]
    refine ⟨lexLe_trans (lexLe_append_self _ _) h2, lexLe_trans h1 ?_⟩
    refine lexLe_append_right _ (lexLe_replicate_255 ?_ ?_)
    · exact fun b hbm => hb b (List.mem_append_right _ hbm)
    · have := hlen
      simp only [List.length_append] at this
      omega

/-! ### Lemmas: row-group statistics -/

theorem lexMinList_le (h : List Nat) (t : List (List Nat)) :
    ∀ x ∈ h :: t, lexLe (lexMinList h t) x = true := by
  induction t generalizing h with
  | nil =>
    intro x hx
    simp only [List.mem_singleton] at hx
    subst hx; exact lexLe_refl _
  | cons y t ih =>
    intro x hx
    have step : lexMinList h (y :: t) = lexMinList (if lexLe y h then y else h) t := rfl
    have hyh : lexLe (if lexLe y h then y else h) h = true := by
      by_cases hc : lexLe y h = true
      · simpa [hc]
      · simp [hc, lexLe_refl]
    have hyy : lexLe (if lexLe y h then y else h) y = true := by
      by_cases hc : lexLe y h = true
      · simp [hc, lexLe_refl]
      · rcases lexLe_total y h with h2 | h2
        · exact absurd h2 hc
        · simpa [hc]
    rcases List.mem_cons.1 hx with rfl | hx2
    · rw [step]
      exact lexLe_trans (ih _ _ (List.mem_cons_self _ _)) hyh
    · rcases List.mem_cons.1 hx2 with rfl | hx3
      · rw [step]
        exact lexLe_trans (ih _ _ (List.mem_cons_self _ _)) hyy
      · rw [step]
        exact ih _ _ (List.mem_cons_of_mem _ hx3)

theorem le_lexMaxList (h : List Nat) (t : List (List Nat)) :
    ∀ x ∈ h :: t, lexLe x (lexMaxList h t) = true := by
  induction t generalizing h with
  | nil =>
    intro x hx
    simp only [List.mem_singleton] at hx
    subst hx; exact lexLe_refl _
  | cons y t ih =>
    intro x hx
    have step : lexMaxList h (y :: t) = lexMaxList (if lexLe h y then y else h) t := rfl
    have hyh : lexLe h (if lexLe h y then y else h) = true := by
      by_cases hc : lexLe h y = true
      · simpa [hc]
      · simp [hc, lexLe_refl]
    have hyy : lexLe y (if lexLe h y then y else h) = true := by
      by_cases hc : lexLe h y = true
      · simp [hc, lexLe_refl]
      · rcases lexLe_total h y with h2 | h2
        · exact absurd h2 hc
        · simpa [hc]
    rcases List.mem_cons.1 hx with rfl | hx2
    · rw [step]
      exact lexLe_trans hyh (ih _ _ (List.mem_cons_self _ _))
    · rcases List.mem_cons.1 hx2 with rfl | hx3
      · rw [step]
        exact lexLe_trans hyy (ih _ _ (List.mem_cons_self _ _))
      · rw [step]
        exact ih _ _ (List.mem_cons_of_mem _ hx3)

theorem lexMaxList_mem (h : List Nat) (t : List (List Nat)) :
    lexMaxList h t ∈ h :: t := by
  induction t generalizing h with
  | nil => exact List.mem_singleton.2 rfl
  | cons y t ih =>
    have step : lexMaxList h (y :: t) = lexMaxList (if lexLe h y then y else h) t := rfl
    rw [step]
    have := ih (if lexLe h y then y else h)
    rcases List.mem_cons.1 this with he | hm
    · rw [he]
      by_cases hc : lexLe h y = true
      · simp only [hc, if_true]
        exact List.mem_cons_of_mem _ (List.mem_cons_self _ _)
      · simp only [hc, if_false]
        exact List.mem_cons_self _ _
    · exact List.mem_cons_of_mem _ (List.mem_cons_of_mem _ hm)

/-- For a populated group the statistics bound every row's hash, and the
maximum is one of the hashes. -/
theorem rgStats_bounds {g : List HashRecord} {mn mx : List Nat}
    (hst : rgStats g = some (mn, mx)) :
    (∀ r ∈ g, lexLe mn r.hash = true ∧ lexLe r.hash mx = true) ∧
      mx ∈ g.map (fun r => r.hash) := by
  unfold rgStats at hst
  cases hm : g.map (fun r => r.hash) with
  | nil => rw [hm] at hst; simp at hst
  | cons h t =>
    rw [hm] at hst
    simp only [Option.some_inj, Prod.mk.injEq] at hst
    obtain ⟨rfl, rfl⟩ := hst
    constructor
    · intro r hr
      have hmem : r.hash ∈ h :: t := by
        rw [← hm]; exact List.mem_map_of_mem _ hr
      exact ⟨lexMinList_le _ _ _ hmem, le_lexMaxList _ _ _ hmem⟩
    · exact lexMaxList_mem _ _

/-! ### Lemmas: membership filter -/

theorem bloomSet_kNum (bl : Bloom) (x : List Nat) : (bloomSet bl x).kNum = bl.kNum := rfl

theorem bloomSet_numBits (bl : Bloom) (x : List Nat) :
    (bloomSet bl x).bitmap.numBits = bl.bitmap.numBits := rfl

theorem bloomSet_key0 (bl : Bloom) (x : List Nat) : (bloomSet bl x).key0 = bl.key0 := rfl

theorem bloomSet_key1 (bl : Bloom) (x : List Nat) : (bloomSet bl x).key1 = bl.key1 := rfl

theorem bloomIndex_set (bl : Bloom) (x y : List Nat) (i : Nat) :
    bloomIndex (bloomSet bl y) x i = bloomIndex bl x i := rfl

/-- An insert never clears a bit: `check` is monotone under `set`. -/
theorem bloomCheck_set_mono {bl : Bloom} {x : List Nat} (y : List Nat)
    (h : bloomCheck bl x = true) : bloomCheck (bloomSet bl y) x = true := by
  simp only [bloomCheck, List.all_eq_true, decide_eq_true_eq] at h ⊢
  intro i hi
  rw [bloomSet_kNum] at hi
  rw [bloomIndex_set]
  exact List.mem_append_left _ (h i hi)

/-- No false negatives: after inserting `x`, probing `x` says maybe-present. -/
theorem bloomCheck_set_self (bl : Bloom) (x : List Nat) :
    bloomCheck (bloomSet bl x) x = true := by
  simp only [bloomCheck, List.all_eq_true, decide_eq_true_eq]
  intro i hi
  rw [bloomSet_kNum] at hi
  rw [bloomIndex_set]
  exact List.mem_append_right _ (List.mem_map_of_mem _ hi)

theorem collectStats_bloom (ws : WriteStats) (rs : List HashRecord) :
    (collectStats ws rs).bloom = foldBloom ws.bloom rs := rfl

theorem foldBloom_mono {bl : Bloom} {x : List Nat} (rs : List HashRecord)
    (h : bloomCheck bl x = true) : bloomCheck (foldBloom bl rs) x = true := by
  induction rs generalizing bl with
  | nil => exact h
  | cons r rest ih => exact ih (bloomCheck_set_mono _ h)

theorem foldBloom_mem {rs : List HashRecord} {r : HashRecord} (bl : Bloom)
    (h : r ∈ rs) : bloomCheck (foldBloom bl rs) r.hash = true := by
  induction rs generalizing bl with
  | nil => cases h
  | cons s rest ih =>
    rcases List.mem_cons.1 h with rfl | hm
    · exact foldBloom_mono rest (bloomCheck_set_self _ _)
    · exact ih _ hm

theorem foldBloom_kNum (bl : Bloom) (rs : List HashRecord) :
    (foldBloom bl rs).kNum = bl.kNum := by
  induction rs generalizing bl with
  | nil => rfl
  | cons r rest ih => exact ih _

theorem foldBloom_key0 (bl : Bloom) (rs : List HashRecord) :
    (foldBloom bl rs).key0 = bl.key0 := by
  induction rs generalizing bl with
  | nil => rfl
  | cons r rest ih => exact ih _

theorem foldBloom_key1 (bl : Bloom) (rs : List HashRecord) :
    (foldBloom bl rs).key1 = bl.key1 := by
  induction rs generalizing bl with
  | nil => rfl
  | cons r rest ih => exact ih _

theorem mkBloom_wf (items : Nat) (k0 k1 : Nat × Nat) : BloomWF (mkBloom items k0 k1) := by
  have hU : 0 < U64 := by decide
  exact ⟨rfl, Nat.mod_lt _ hU, Nat.mod_lt _ hU, Nat.mod_lt _ hU, Nat.mod_lt _ hU⟩

theorem foldBloom_wf {bl : Bloom} (rs : List HashRecord) (h : BloomWF bl) :
    BloomWF (foldBloom bl rs) := by
  obtain ⟨h1, h2, h3, h4, h5⟩ := h
  refine ⟨?_, ?_, ?_, ?_, ?_⟩ <;>
    simp [foldBloom_kNum, foldBloom_key0, foldBloom_key1, h1, h2, h3, h4, h5]

/-! ### Lemmas: the write path -/

/-- `write_batch` sequences append exactly the non-empty batches. -/
theorem writeAll_groups (st : ParquetState) (batches : List (List HashRecord)) :
    (writeAll st batches).groups =
      st.groups ++ batches.filter (fun b => !b.isEmpty) := by
  induction batches generalizing st with
  | nil => simp [writeAll]
  | cons b rest ih =>
    by_cases hb : b.isEmpty
    · have hstep : writeBatch st b = st := by simp [writeBatch, hb]
      have : writeAll st (b :: rest) = writeAll st rest := by
        simp [writeAll, hstep]
      rw [this, ih]
      simp [hb]
    · have hstep : writeBatch st b =
          { stats := collectStats st.stats b, groups := st.groups ++ [b] } := by
        simp [writeBatch, hb]
      have : writeAll st (b :: rest) = writeAll (writeBatch st b) rest := rfl
      rw [this, ih, hstep]
      simp [hb]

/-- The bloom of the final state still answers maybe-present for every
hash already covered, and covers every record of every written batch. -/
theorem writeAll_bloomCheck (st : ParquetState) (batches : List (List HashRecord))
    (hst : ∀ g ∈ st.groups, ∀ r ∈ g, bloomCheck st.stats.bloom r.hash = true) :
    ∀ g ∈ (writeAll st batches).groups, ∀ r ∈ g,
      bloomCheck (writeAll st batches).stats.bloom r.hash = true := by
  induction batches generalizing st with
  | nil => exact hst
  | cons b rest ih =>
    have hstep : writeAll st (b :: rest) = writeAll (writeBatch st b) rest := rfl
    rw [hstep]
    refine ih _ ?_
    intro g hg r hr
    by_cases hb : b.isEmpty
    · have : writeBatch st b = st := by simp [writeBatch, hb]
      rw [this] at hg ⊢
      exact hst g hg r hr
    · have hwb : writeBatch st b =
          { stats := collectStats st.stats b, groups := st.groups ++ [b] } := by
        simp [writeBatch, hb]
      rw [hwb] at hg ⊢
      simp only [collectStats_bloom]
      rcases List.mem_append.1 hg with hold | hnew
      · exact foldBloom_mono _ (hst g hold r hr)
      · have : g = b := by simpa using hnew
        subst this
        exact foldBloom_mem _ hr

theorem writeAll_bloomWF (st : ParquetState) (batches : List (List HashRecord))
    (h : BloomWF st.stats.bloom) : BloomWF (writeAll st batches).stats.bloom := by
  induction batches generalizing st with
  | nil => exact h
  | cons b rest ih =>
    have hstep : writeAll st (b :: rest) = writeAll (writeBatch st b) rest := rfl
    rw [hstep]
    refine ih _ ?_
    by_cases hb : b.isEmpty
    · simpa [writeBatch, hb] using h
    · have hwb : writeBatch st b =
          { stats := collectStats st.stats b, groups := st.groups ++ [b] } := by
        simp [writeBatch, hb]
      rw [hwb]
      simpa [collectStats_bloom] using foldBloom_wf _ h

theorem initParquet_bloomWF (expected : Nat) (k0 k1 : Nat × Nat) :
    BloomWF (initParquet expected k0 k1).stats.bloom :=
  mkBloom_wf _ _ _

/-- Round trip of the serialized filter: the metadata written by `finish`
loads back to a filter equal (hence probe-identical) to the one
serialized, provided the stored item count fits the reader's `u32` parse. -/
theorem loadBloom_buildMeta (ws : WriteStats) (hwf : BloomWF ws.bloom)
    (hcnt : ws.totalRecords < 4294967296) :
    loadBloomFilter (buildMeta ws) = .ok (some ws.bloom) := by
  obtain ⟨hk, h2, h3, h4, h5⟩ := hwf
  have hkeys : parseBloomKeys [ws.bloom.key0.1, ws.bloom.key0.2, ws.bloom.key1.1,
      ws.bloom.key1.2] = some ((ws.bloom.key0.1, ws.bloom.key0.2),
      (ws.bloom.key1.1, ws.bloom.key1.2)) := by
    simp [parseBloomKeys, h2, h3, h4, h5]
  have hcnt2 : (if ws.totalRecords < 4294967296 then some ws.totalRecords else none) =
      some ws.totalRecords := by simp [hcnt]
  simp only [loadBloomFilter, buildMeta, Option.some_bind, hkeys, hcnt2,
    bloomFromExisting, ← hk, Prod.mk.eta]

/-- When the stored item count does not fit the reader's u32 parse, the
filter silently fails to load (`ok none`). -/
theorem loadBloom_buildMeta_none (ws : WriteStats) (hwf : BloomWF ws.bloom)
    (hcnt : ¬ ws.totalRecords < 4294967296) :
    loadBloomFilter (buildMeta ws) = .ok none := by
  obtain ⟨hk, h2, h3, h4, h5⟩ := hwf
  have hkeys : parseBloomKeys [ws.bloom.key0.1, ws.bloom.key0.2, ws.bloom.key1.1,
      ws.bloom.key1.2] = some ((ws.bloom.key0.1, ws.bloom.key0.2),
      (ws.bloom.key1.1, ws.bloom.key1.2)) := by
    simp [parseBloomKeys, h2, h3, h4, h5]
  have hcnt2 : (if ws.totalRecords < 4294967296 then some ws.totalRecords else none) =
      (none : Option Nat) := by simp [hcnt]
  simp only [loadBloomFilter, buildMeta, Option.some_bind, hkeys, hcnt2]

/-! ### Lemmas: the scan -/

/-- With no limit the scan is a plain filter. -/
theorem scanRows_no_limit (pref : List Nat) (algo : Option String)
    (rows acc : List HashRecord) :
    scanRows pref algo none rows acc =
      acc ++ rows.filter (fun r => startsWithBytes pref r.hash && algoMatch algo r.algorithm) := by
  induction rows generalizing acc with
  | nil => simp [scanRows]
  | cons r rest ih =>
    by_cases h1 : startsWithBytes pref r.hash
    · by_cases h2 : algoMatch algo r.algorithm
      · simp [scanRows, h1, h2, limitReached, ih]
      · simp [scanRows, h1, h2, ih]
    · simp [scanRows, h1, ih]

/-- Length bound of the limited scan: starting below the limit the result
stays within it; at or above the limit at most one more row is emitted
(the check happens after the push). -/
theorem scanRows_limit_length (pref : List Nat) (algo : Option String) (n : Nat)
    (rows acc : List HashRecord) :
    (scanRows pref algo (some n) rows acc).length ≤
      if acc.length < n then n else acc.length + 1 := by
  induction rows generalizing acc with
  | nil =>
    simp only [scanRows]
    by_cases h : acc.length < n
    · rw [if_pos h]; omega
    · rw [if_neg h]; omega
  | cons r rest ih =>
    have hL : (acc ++ [r]).length = acc.length + 1 := by simp
    by_cases h1 : startsWithBytes pref r.hash
    · by_cases h2 : algoMatch algo r.algorithm
      · by_cases h3 : n ≤ acc.length + 1
        · have hreach : limitReached (some n) (acc.length + 1) = true := by
            simp [limitReached, h3]
          have hstep : scanRows pref algo (some n) (r :: rest) acc = acc ++ [r] := by
            simp [scanRows, h1, h2, hreach]
          rw [hstep, hL]
          by_cases h : acc.length < n
          · rw [if_pos h]; omega
          · rw [if_neg h]
        · have hreach : limitReached (some n) (acc.length + 1) = false := by
            simp only [limitReached, decide_eq_false_iff_not]
            omega
          have hstep : scanRows pref algo (some n) (r :: rest) acc =
              scanRows pref algo (some n) rest (acc ++ [r]) := by
            simp [scanRows, h1, h2, hreach]
          rw [hstep]
          have hrec := ih (acc ++ [r])
          rw [hL, if_pos (by omega : acc.length + 1 < n)] at hrec
          by_cases h : acc.length < n
          · rw [if_pos h]; omega
          · rw [if_neg h]; omega
      · have hstep : scanRows pref algo (some n) (r :: rest) acc =
            scanRows pref algo (some n) rest acc := by
          simp [scanRows, h1, h2]
        rw [hstep]; exact ih acc
    · have hstep : scanRows pref algo (some n) (r :: rest) acc =
          scanRows pref algo (some n) rest acc := by
        simp [scanRows, h1]
      rw [hstep]; exact ih acc

/-! ### Lemmas: the final sort -/

/-- Filtering an equal-hash class through an ordered insert: the inserted
record lands in front of the class it belongs to and leaves every other
class untouched (the insert only passes over strictly smaller hashes). -/
theorem filter_hash_orderedInsert (hsh : List Nat) (x : HashRecord) (l : List HashRecord) :
    (List.orderedInsert recLe x l).filter (fun r => r.hash == hsh) =
      if x.hash == hsh then x :: l.filter (fun r => r.hash == hsh)
      else l.filter (fun r => r.hash == hsh) := by
  rw [List.orderedInsert_eq_take_drop, List.filter_append]
  have hskip : ∀ a ∈ l.takeWhile (fun b => decide ¬ recLe x b), ¬ a.hash = x.hash := by
    intro a ha he
    have hp := List.mem_takeWhile_imp ha
    simp only [decide_eq_true_eq] at hp
    exact hp (by rw [recLe, he]; exact lexLe_refl _)
  by_cases hx : x.hash == hsh
  · have hxe : x.hash = hsh := by simpa using hx
    have htake : (l.takeWhile (fun b => decide ¬ recLe x b)).filter
        (fun r => r.hash == hsh) = [] := by
      refine List.filter_eq_nil_iff.mpr ?_
      intro a ha
      simp only [beq_iff_eq, decide_eq_true_eq]
      intro he
      exact hskip a ha (he.trans hxe.symm)
    rw [htake, List.filter_cons, if_pos hx]
    have hrest : l.filter (fun r => r.hash == hsh) =
        (l.dropWhile (fun b => decide ¬ recLe x b)).filter (fun r => r.hash == hsh) := by
      conv_lhs => rw [← List.takeWhile_append_dropWhile
        (fun b => decide ¬ recLe x b) l]
      rw [List.filter_append, htake, List.nil_append]
    rw [if_pos hx, hrest]
    simp
  · rw [List.filter_cons, if_neg hx, if_neg hx]
    conv_rhs => rw [← List.takeWhile_append_dropWhile (fun b => decide ¬ recLe x b) l]
    rw [List.filter_append]

/-- Stability of the final sort: each equal-hash run keeps its pre-sort
order. -/
theorem sortByHash_filter_hash (l : List HashRecord) (hsh : List Nat) :
    (sortByHash l).filter (fun r => r.hash == hsh) =
      l.filter (fun r => r.hash == hsh) := by
  induction l with
  | nil => rfl
  | cons x xs ih =>
    have hstep : sortByHash (x :: xs) =
        List.orderedInsert recLe x (List.insertionSort recLe xs) := rfl
    rw [hstep, filter_hash_orderedInsert, List.filter_cons]
    by_cases hx : x.hash == hsh
    · rw [if_pos hx, if_pos hx]
      exact congrArg _ ih
    · rw [if_neg hx, if_neg hx]
      exact ih

theorem sortByHash_sorted (l : List HashRecord) :
    List.Sorted recLe (sortByHash l) := by
  haveI : IsTotal HashRecord recLe := ⟨fun a b => lexLe_total a.hash b.hash⟩
  haveI : IsTrans HashRecord recLe := ⟨fun _ _ _ h1 h2 => lexLe_trans h1 h2⟩
  exact List.sorted_insertionSort recLe l

theorem sortByHash_perm (l : List HashRecord) : List.Perm (sortByHash l) l :=
  List.perm_insertionSort recLe l

/-! ### Lemmas: chunked writing -/

theorem chunksOf_flatten (l : List HashRecord) : (chunksOf l).flatten = l := by
  induction l using chunksOf.induct with
  | case1 => simp [chunksOf]
  | case2 a t ih =>
    rw [chunksOf]
    simp only [List.flatten_cons, ih, List.take_append_drop]

theorem chunksOf_ne_empty (l : List HashRecord) :
    ∀ b ∈ chunksOf l, b.isEmpty = false := by
  induction l using chunksOf.induct with
  | case1 => intro b hb; simp [chunksOf] at hb
  | case2 a t ih =>
    intro b hb
    rw [chunksOf] at hb
    rcases List.mem_cons.1 hb with rfl | hm
    · have : ((a :: t).take BATCH_SIZE).length = min BATCH_SIZE (a :: t).length := by
        simp
      have hpos : 0 < ((a :: t).take BATCH_SIZE).length := by
        rw [this]
        simp [BATCH_SIZE]
      cases hb2 : (a :: t).take BATCH_SIZE with
      | nil => rw [hb2] at hpos; simp at hpos
      | cons c cs => simp
    · exact ih b hm

/-! ### Lemmas: the remote store -/

theorem r2WriteAll_pending (st : R2State) (batches : List (List HashRecord)) :
    (r2WriteAll st batches).pending = st.pending ++ batches.flatten := by
  induction batches generalizing st with
  | nil => simp [r2WriteAll]
  | cons b rest ih =>
    have hstep : r2WriteAll st (b :: rest) = r2WriteAll (r2WriteBatch st b) rest := rfl
    rw [hstep, ih]
    simp [r2WriteBatch]

theorem r2WriteAll_remote (st : R2State) (batches : List (List HashRecord)) :
    (r2WriteAll st batches).remoteObject = st.remoteObject := by
  induction batches generalizing st with
  | nil => rfl
  | cons b rest ih =>
    have hstep : r2WriteAll st (b :: rest) = r2WriteAll (r2WriteBatch st b) rest := rfl
    rw [hstep, ih]
    rfl

/-! ### Lemmas: the append-merge -/

theorem mergeNewSources_nodup (priorS newS : List String) (h : priorS.Nodup) :
    (mergeNewSources priorS newS).Nodup := by
  induction newS generalizing priorS with
  | nil => exact h
  | cons s rest ih =>
    have hstep : mergeNewSources priorS (s :: rest) =
        mergeNewSources (if priorS.contains s then priorS else priorS ++ [s]) rest := rfl
    rw [hstep]
    by_cases hc : priorS.contains s
    · rw [if_pos hc]; exact ih _ h
    · rw [if_neg hc]
      refine ih _ ?_
      have hs : s ∉ priorS := fun hm => hc (List.elem_iff.mpr hm)
      simpa [List.nodup_append] using ⟨h, hs⟩

theorem mergeNewSources_eq (priorS : List String) {newS : List String} (h : newS.Nodup) :
    mergeNewSources priorS newS =
      priorS ++ newS.filter (fun s => !priorS.contains s) := by
  induction newS generalizing priorS with
  | nil => simp [mergeNewSources]
  | cons s rest ih =>
    have hstep : mergeNewSources priorS (s :: rest) =
        mergeNewSources (if priorS.contains s then priorS else priorS ++ [s]) rest := rfl
    have hnd := h.of_cons
    have hsm : s ∉ rest := h.not_mem
    rw [hstep]
    by_cases hc : priorS.contains s
    · have hps : (!priorS.contains s) = false := by rw [hc]; rfl
      rw [if_pos hc, ih _ hnd]
      simp only [List.filter_cons, hps, Bool.false_eq_true, if_false]
    · have hcf : priorS.contains s = false := by
        revert hc; cases priorS.contains s <;> simp
      have hps : (!priorS.contains s) = true := by rw [hcf]; rfl
      rw [if_neg hc, ih _ hnd]
      have hfe : rest.filter (fun x => !(priorS ++ [s]).contains x) =
          rest.filter (fun x => !priorS.contains x) := by
        refine List.filter_congr ?_
        intro x hx
        have hxs : x ≠ s := fun he => hsm (he ▸ hx)
        have hiff : (x ∈ priorS ++ [s]) ↔ x ∈ priorS := by
          simp only [List.mem_append, List.mem_singleton]
          exact ⟨fun hm => hm.resolve_right hxs, Or.inl⟩
        have e1 : (priorS ++ [s]).contains x = decide (x ∈ priorS ++ [s]) :=
          List.elem_eq_mem x (priorS ++ [s])
        have e2 : priorS.contains x = decide (x ∈ priorS) := List.elem_eq_mem x priorS
        have hceq : (priorS ++ [s]).contains x = priorS.contains x := by
          rw [e1, e2]
          simp [hiff]
        rw [hceq]
      rw [hfe]
      simp only [List.filter_cons, hps, if_true, List.append_assoc, List.singleton_append]

/-- The merged prior segment keeps every prior record's identity (hash,
algorithm, preimage), in order, and the merge is total — it cannot fail. -/
theorem appendMerge_keeps_identity (priorRecords : List HashRecord) (m : RecordMap) :
    ∀ acc : List HashRecord,
      (priorRecords.foldl appendMergeStep (acc, m)).1.map
          (fun r => (r.hash, r.algorithm, r.preimage)) =
        acc.map (fun r => (r.hash, r.algorithm, r.preimage)) ++
          priorRecords.map (fun r => (r.hash, r.algorithm, r.preimage)) := by
  induction priorRecords generalizing m with
  | nil => intro acc; simp
  | cons p rest ih =>
    intro acc
    have hstep : (p :: rest).foldl appendMergeStep (acc, m) =
        rest.foldl appendMergeStep (appendMergeStep (acc, m) p) := rfl
    rw [hstep]
    rcases hfind : (mapRemove m (recordKey p)).1 with _ | nr
    · have : appendMergeStep (acc, m) p = (acc ++ [p], m) := by
        simp [appendMergeStep, hfind]
      rw [this, ih]
      simp
    · have : appendMergeStep (acc, m) p =
          (acc ++ [{ p with sources := mergeNewSources p.sources nr.sources }],
            (mapRemove m (recordKey p)).2) := by
        simp [appendMergeStep, hfind]
      rw [this, ih]
      simp

/-! ### Claim theorems -/

/-- C9: for every query input, algorithm filter and limit, querying a
path where no file exists returns the empty result set without error,
and stats on a missing file returns the default zero stats without
error. -/
theorem C9_missing_file_query_empty_stats_default :
    (∀ (pref : List Nat) (algo : Option String) (limit : Option Nat),
        queryFile none pref algo limit = []) ∧
      statsFile none = defaultStats :=
  ⟨fun _ _ _ => rfl, rfl⟩

/-- C5: for the local store, any sequence of `write_batch` calls whose
every argument is the empty list, followed by `finish`, creates no file
on disk; for the remote store, `finish` after buffering zero records
performs no write to the remote object store. -/
theorem C5_empty_batches_no_file (cap : Nat) (k0 k1 : Nat × Nat)
    (batches rbatches : List (List HashRecord))
    (h1 : ∀ b ∈ batches, b = []) (h2 : ∀ b ∈ rbatches, b = []) :
    finishFile (writeAll (initParquet cap k0 k1) batches) = none ∧
      (r2Finish (r2WriteAll r2Init rbatches)).remoteObject = none := by
  constructor
  · have hg : (writeAll (initParquet cap k0 k1) batches).groups = [] := by
      rw [writeAll_groups]
      have hf : batches.filter (fun b => !b.isEmpty) = [] := by
        refine List.filter_eq_nil_iff.mpr ?_
        intro b hb
        rw [h1 b hb]
        simp
      rw [hf]
      rfl
    simp [finishFile, hg]
  · have hp : (r2WriteAll r2Init rbatches).pending = [] := by
      rw [r2WriteAll_pending]
      have : rbatches.flatten = [] := List.flatten_eq_nil_iff.mpr h2
      simp [r2Init, this]
    rw [r2Finish, hp]
    simp only [List.isEmpty_nil, if_true]
    rw [r2WriteAll_remote]
    rfl

theorem C5_witness :
    ((∀ b ∈ ([[], []] : List (List HashRecord)), b = []) ∧
        (∀ b ∈ ([[]] : List (List HashRecord)), b = [])) ∧
      (finishFile (writeAll (initParquet 0 (0, 0) (0, 0)) [[], []]) = none ∧
        (r2Finish (r2WriteAll r2Init [[]])).remoteObject = none) :=
  ⟨⟨by decide, by decide⟩,
    C5_empty_batches_no_file 0 (0, 0) (0, 0) [[], []] [[]] (by decide) (by decide)⟩

/-- C10: on a full-hash-length query, when loading or parsing the
membership-filter metadata fails or its keys are absent or malformed,
the query neither fails nor prunes: it returns exactly what it would on
the same file carrying no filter keys at all. -/
theorem C10_bad_filter_metadata_ignored (f : ArtifactFile) (pref : List Nat)
    (algo : Option String) (limit : Option Nat)
    (hfull : isFullHashLength pref.length = true)
    (hfail : loadBloomFilter f.meta = .error () ∨ loadBloomFilter f.meta = .ok none) :
    queryFile (some f) pref algo limit =
      queryFile (some { f with meta := stripBloomMeta f.meta }) pref algo limit := by
  have hgateL : bloomGatePass f.meta pref = true := by
    rw [bloomGatePass, if_pos hfull]
    rcases hfail with h | h <;> rw [h]
  have hgateR : bloomGatePass (stripBloomMeta f.meta) pref = true := by
    rw [bloomGatePass, if_pos hfull]
    have : loadBloomFilter (stripBloomMeta f.meta) = .ok none := by
      rw [stripBloomMeta, loadBloomFilter]
    rw [this]
  rw [queryFile, queryFile, hgateL, hgateR]

theorem C10_witness :
    (isFullHashLength ((List.replicate 16 (0 : Nat)).length) = true ∧
        (loadBloomFilter ({ bloomKeys := some [1, 2, 3] } : FileMeta) = .error () ∨
          loadBloomFilter ({ bloomKeys := some [1, 2, 3] } : FileMeta) = .ok none)) ∧
      queryFile (some ⟨[[⟨List.replicate 16 0, "a", "md5", ["s"]⟩]],
          { bloomKeys := some [1, 2, 3] }⟩) (List.replicate 16 0) none none =
        queryFile (some ⟨[[⟨List.replicate 16 0, "a", "md5", ["s"]⟩]],
          stripBloomMeta { bloomKeys := some [1, 2, 3] }⟩) (List.replicate 16 0)
          none none :=
  ⟨⟨by decide, Or.inr rfl⟩,
    C10_bad_filter_metadata_ignored _ _ none none (by decide) (Or.inr rfl)⟩

/-- C2 counterexample: the claim "query(prefix, _, n) returns at most n
records" fails at n = 0 on the local store: the limit is only checked
after a row is pushed, so limit 0 returns one record when one matches. -/
theorem C2_counterexample_limit_zero :
    (queryFile (finishFile (writeAll (initParquet 1 (0, 1) (2, 3))
        [[{ hash := [1], preimage := "a", algorithm := "md5", sources := ["s"] }]]))
      [] none (some 0)).length = 1 := by decide

/-- C2 amended: the local store's query returns at most n records for
every limit n ≥ 1 (at n = 0 it can return one record, the scan checking
the limit only after a push); the remote store's LIMIT n holds for every
n ≥ 0. -/
theorem C2_amended_limit (f : Option ArtifactFile) (content : List HashRecord)
    (pref : List Nat) (algo : Option String) (n : Nat) (hn : 1 ≤ n) :
    (queryFile f pref algo (some n)).length ≤ n ∧
      ∀ n2 : Nat, (r2Query content pref algo (some n2)).length ≤ n2 := by
  constructor
  · match f with
    | none => simp [queryFile]
    | some af =>
      rw [queryFile]
      by_cases hg : bloomGatePass af.meta pref = false
      · rw [if_pos hg]; simp
      · rw [if_neg hg]
        by_cases he : (af.groups.filter (fun g => includeGroup pref g)).isEmpty
        · rw [if_pos he]; simp
        · rw [if_neg he]
          have hb := scanRows_limit_length pref algo n
            (af.groups.filter (fun g => includeGroup pref g)).flatten []
          rw [List.length_nil, if_pos (by omega : 0 < n)] at hb
          exact hb
  · intro n2
    rw [r2Query]
    exact (List.length_take_le _ _).trans (Nat.le_refl _) |>.trans (by simp)

theorem C2_amended_limit_witness :
    1 ≤ 1 ∧
      ((queryFile (some ⟨[[⟨[1], "a", "md5", ["s"]⟩]], {}⟩) [] none (some 1)).length ≤ 1 ∧
        ∀ n2 : Nat, (r2Query [⟨[1], "a", "md5", ["s"]⟩] [] none (some n2)).length ≤ n2) :=
  ⟨by decide, C2_amended_limit (some ⟨[[⟨[1], "a", "md5", ["s"]⟩]], {}⟩)
    [⟨[1], "a", "md5", ["s"]⟩] [] none 1 (by decide)⟩

/-- C3 counterexample: the round trip is NOT functionally identical for
every serialized filter. `finish` stores the usize record count, but
`load_bloom_filter` parses it as u32: for a filter serialized with
2^32 = 4294967296 records the metadata carries all three keys
(`shaha:bloom_items` included), yet the u32 parse fails and
deserialization reconstructs no filter at all (`ok none`) — so no
reconstructed filter probes identically to the serialized one. -/
theorem C3_counterexample_items_u32_overflow :
    (buildMeta ⟨4294967296, [], [], [], mkBloom 1000000 (1, 2) (3, 4)⟩).bloomItems =
        some 4294967296 ∧
      (buildMeta ⟨4294967296, [], [], [],
        mkBloom 1000000 (1, 2) (3, 4)⟩).bloomBitmap.isSome = true ∧
      (buildMeta ⟨4294967296, [], [], [],
        mkBloom 1000000 (1, 2) (3, 4)⟩).bloomKeys.isSome = true ∧
      loadBloomFilter (buildMeta ⟨4294967296, [], [], [],
        mkBloom 1000000 (1, 2) (3, 4)⟩) = .ok none :=
  ⟨rfl, rfl, rfl, rfl⟩

/-- C3 amended: a membership filter built by the write path and
serialized into the artifact metadata by `finish` deserializes (via
`load_bloom_filter`) into a filter that probes identically to the
serialized one — for every byte string the probe answers agree —
provided the stored item count fits the reader's u32 parse
(total records < 2^32); beyond that the reader reconstructs no filter. -/
theorem C3_bloom_roundtrip (cap : Nat) (k0 k1 : Nat × Nat)
    (batches : List (List HashRecord))
    (hcnt : (writeAll (initParquet cap k0 k1) batches).stats.totalRecords < 4294967296) :
    ∃ bl, loadBloomFilter (buildMeta (writeAll (initParquet cap k0 k1) batches).stats) =
        .ok (some bl) ∧
      ∀ bytes : List Nat,
        bloomCheck bl bytes =
          bloomCheck (writeAll (initParquet cap k0 k1) batches).stats.bloom bytes := by
  refine ⟨(writeAll (initParquet cap k0 k1) batches).stats.bloom, ?_, fun _ => rfl⟩
  exact loadBloom_buildMeta _ (writeAll_bloomWF _ _ (initParquet_bloomWF cap k0 k1)) hcnt

theorem C3_bloom_roundtrip_witness :
    (writeAll (initParquet 1 (1, 2) (3, 4))
        [[⟨[1, 2], "a", "md5", ["s"]⟩]]).stats.totalRecords < 4294967296 ∧
      ∃ bl, loadBloomFilter (buildMeta (writeAll (initParquet 1 (1, 2) (3, 4))
          [[⟨[1, 2], "a", "md5", ["s"]⟩]]).stats) = .ok (some bl) ∧
        ∀ bytes : List Nat,
          bloomCheck bl bytes =
            bloomCheck (writeAll (initParquet 1 (1, 2) (3, 4))
              [[⟨[1, 2], "a", "md5", ["s"]⟩]]).stats.bloom bytes :=
  ⟨by decide, C3_bloom_roundtrip 1 (1, 2) (3, 4) [[⟨[1, 2], "a", "md5", ["s"]⟩]] (by decide)⟩

/-- C4 counterexample: merging a prior record with an accumulator record
of the same key but a different preimage does NOT fail: there is no
`InconsistentMerge` anywhere; the prior preimage "old" silently wins and
the accumulator preimage "new" is dropped, with only sources merged. -/
theorem C4_counterexample_no_inconsistent_merge :
    buildFinalRecords [⟨[1], "old", "md5", ["s1"]⟩]
      [(([1], "md5"), ⟨[1], "new", "md5", ["s2"]⟩)] =
      [⟨[1], "old", "md5", ["s1", "s2"]⟩] := by decide

/-- C4 amended: the append-merge is total and never compares preimages —
it cannot fail with any error; for every prior record the output keeps
its hash, algorithm and preimage unchanged (a differing accumulator
preimage is silently discarded in favor of the prior record, only
sources are merged). -/
theorem C4_amended_merge_keeps_prior (priorRecords : List HashRecord) (m : RecordMap) :
    (appendMerge priorRecords m).1.map (fun r => (r.hash, r.algorithm, r.preimage)) =
      priorRecords.map (fun r => (r.hash, r.algorithm, r.preimage)) := by
  have := appendMerge_keeps_identity priorRecords m []
  simpa [appendMerge] using this

/-- C6 counterexample: the range test is NOT conservative for every
group whose min/max bound its hashes: with min = [5,255], max = [6] the
row hash [5,255] lies between the bounds and starts with the queried
byte [5], yet the test rejects the group (the padded high bound [5]
is lexicographically below min). -/
theorem C6_counterexample_bounded_row_excluded :
    might_be_in_range [5] [5, 255] [6] = false ∧
      lexLe [5, 255] [5, 255] = true ∧ lexLe [5, 255] [6] = true ∧
      startsWithBytes [5] [5, 255] = true := by decide

/-- C6 amended: the test returns true exactly when the input is empty or
low ≤ max and high ≥ min with high the input right-padded with 0xFF
bytes to max(len(max), len(input)); it is conservative for every row
whose hash is no longer than that padded bound (in particular whenever
all hashes of the group share the length of max): no such row starting
with the queried bytes is in a rejected group. -/
theorem C6_amended_range_test_formula_and_conservative :
    (∀ pref mn mx : List Nat,
        might_be_in_range pref mn mx =
          (pref.isEmpty ||
            (lexLe pref mx &&
              lexLe mn (pref ++
                List.replicate (max mx.length pref.length - pref.length) 255)))) ∧
      ∀ pref mn mx hsh : List Nat, (∀ b ∈ hsh, b ≤ 255) →
        lexLe mn hsh = true → lexLe hsh mx = true →
        startsWithBytes pref hsh = true →
        hsh.length ≤ max mx.length pref.length →
        might_be_in_range pref mn mx = true := by
  constructor
  · intro pref mn mx
    by_cases hp : pref.isEmpty
    · simp [might_be_in_range, hp]
    · simp [might_be_in_range, hp]
  · intro pref mn mx hsh hb h1 h2 hs hlen
    exact might_be_in_range_of_bounds hb h1 h2 hs hlen

theorem C6_amended_range_test_witness :
    ((∀ b ∈ ([1, 2] : List Nat), b ≤ 255) ∧
        lexLe [1, 2] [1, 2] = true ∧ lexLe [1, 2] [1, 3] = true ∧
        startsWithBytes [1] [1, 2] = true ∧
        ([1, 2] : List Nat).length ≤ max ([1, 3] : List Nat).length ([1] : List Nat).length) ∧
      might_be_in_range [1] [1, 2] [1, 3] = true :=
  ⟨⟨by decide, by decide, by decide, by decide, by decide⟩,
    C6_amended_range_test_formula_and_conservative.2 [1] [1, 2] [1, 3] [1, 2]
      (by decide) (by decide) (by decide) (by decide) (by decide)⟩

/-- C8: in the append-merge, a prior record whose key matches an
accumulator record keeps its own sources in order and appends exactly
the accumulator's source tags not already present, in their original
order; with duplicate-free inputs the merged list is duplicate-free. -/
theorem C8_append_merge_source_union (record nr : HashRecord) (m : RecordMap)
    (acc : List HashRecord)
    (hfind : (mapRemove m (recordKey record)).1 = some nr)
    (hpn : record.sources.Nodup) (hnn : nr.sources.Nodup) :
    (appendMergeStep (acc, m) record).1 =
      acc ++ [{ record with sources :=
        record.sources ++ nr.sources.filter (fun s => !record.sources.contains s) }] ∧
      (record.sources ++
        nr.sources.filter (fun s => !record.sources.contains s)).Nodup := by
  constructor
  · simp only [appendMergeStep, hfind]
    rw [mergeNewSources_eq _ hnn]
  · refine List.Nodup.append hpn (hnn.filter _) ?_
    intro a ha hf
    have hc : record.sources.contains a = false := by
      have hp2 := (List.mem_filter.mp hf).2
      revert hp2
      cases record.sources.contains a <;> simp
    have hc2 : record.sources.contains a = true := List.elem_iff.mpr ha
    rw [hc2] at hc
    cases hc

theorem C8_append_merge_source_union_witness :
    ((mapRemove [(([1], "md5"), ⟨[1], "p", "md5", ["s2", "s1"]⟩)]
          (recordKey ⟨[1], "p", "md5", ["s1"]⟩)).1 =
        some ⟨[1], "p", "md5", ["s2", "s1"]⟩ ∧
      (["s1"] : List String).Nodup ∧ (["s2", "s1"] : List String).Nodup) ∧
      ((appendMergeStep ([], [(([1], "md5"), ⟨[1], "p", "md5", ["s2", "s1"]⟩)])
          ⟨[1], "p", "md5", ["s1"]⟩).1 =
        [] ++ [⟨[1], "p", "md5",
          ["s1"] ++ (["s2", "s1"] : List String).filter
            (fun s => !(["s1"] : List String).contains s)⟩] ∧
        ((["s1"] : List String) ++ (["s2", "s1"] : List String).filter
          (fun s => !(["s1"] : List String).contains s)).Nodup) :=
  ⟨⟨by decide, by decide, by decide⟩,
    C8_append_merge_source_union ⟨[1], "p", "md5", ["s1"]⟩ ⟨[1], "p", "md5", ["s2", "s1"]⟩
      [(([1], "md5"), ⟨[1], "p", "md5", ["s2", "s1"]⟩)] [] (by decide) (by decide) (by decide)⟩

/-- C7: the build pipeline's write phase stores exactly the stably
sorted records: `for_each_record` yields them in non-decreasing
byte-lexicographic hash order, and every equal-hash run keeps its
pre-sort order (Rust's `sort_by` is stable; the stable sort by a total
preorder is extensionally unique). -/
theorem C7_build_sorted_stable (k0 k1 : Nat × Nat) (finalRecords : List HashRecord) :
    forEachRecordList (pipelineWrite k0 k1 finalRecords) = sortByHash finalRecords ∧
      List.Sorted recLe (sortByHash finalRecords) ∧
      ∀ hsh : List Nat,
        (sortByHash finalRecords).filter (fun r => r.hash == hsh) =
          finalRecords.filter (fun r => r.hash == hsh) := by
  refine ⟨?_, sortByHash_sorted _, fun hsh => sortByHash_filter_hash _ _⟩
  rw [pipelineWrite]
  cases hl : sortByHash finalRecords with
  | nil =>
    simp [chunksOf, writeAll, finishFile, initParquet, forEachRecordList]
  | cons a t =>
    have hg : (writeAll (initParquet finalRecords.length k0 k1)
        (chunksOf (a :: t))).groups = chunksOf (a :: t) := by
      rw [writeAll_groups]
      have hfilter : (chunksOf (a :: t)).filter (fun b => !b.isEmpty) =
          chunksOf (a :: t) :=
        List.filter_eq_self.mpr (fun b hb => by rw [chunksOf_ne_empty _ b hb]; rfl)
      rw [hfilter]
      rfl
    have hne : (chunksOf (a :: t)).isEmpty = false := by
      rw [chunksOf]
      rfl
    rw [finishFile, hg, hne]
    simp only [Bool.false_eq_true, if_false, forEachRecordList]
    exact chunksOf_flatten (a :: t)

/-- C1 counterexample: a record with a 20-byte hash is written into an
artifact; querying with the first k = 16 bytes of its hash — a
full-hash length — probes the membership filter with the 16-byte
string, which was never inserted (only the full 20-byte hash was), so
the query answers empty although the record is in the artifact. -/
theorem C1_counterexample_full_length_gate_misses :
    queryFile (finishFile (writeAll (initParquet 1 (1, 2) (3, 4))
        [[⟨List.range 20, "w", "sha1", ["s"]⟩]]))
      ((List.range 20).take 16) none none = [] ∧
      (⟨List.range 20, "w", "sha1", ["s"]⟩ : HashRecord) ∈
        forEachRecordList (finishFile (writeAll (initParquet 1 (1, 2) (3, 4))
          [[⟨List.range 20, "w", "sha1", ["s"]⟩]])) := by
  constructor
  · decide
  · decide

/-- C1 amended: prefix queries do contain every written record when the
filter gate cannot misfire and the pruning bound covers the row: for an
artifact whose hashes all share one length L (bytes ≤ 255), a written
record r and any k with 1 ≤ k ≤ L such that k = L or k is not a
full-hash length, query(r.hash[..k], no algorithm, no limit)
contains r. -/
theorem C1_amended_query_contains (cap : Nat) (k0 k1 : Nat × Nat)
    (batches : List (List HashRecord)) (r : HashRecord) (L k : Nat)
    (hmem : ∃ g ∈ batches, r ∈ g)
    (hlen : ∀ g ∈ batches, ∀ s ∈ g, s.hash.length = L)
    (hbytes : ∀ g ∈ batches, ∀ s ∈ g, ∀ b ∈ s.hash, b ≤ 255)
    (hk1 : 1 ≤ k) (hkL : k ≤ L)
    (hgate : k = L ∨ isFullHashLength k = false) :
    r ∈ queryFile (finishFile (writeAll (initParquet cap k0 k1) batches))
        (r.hash.take k) none none := by
  obtain ⟨g0, hg0b, hrg0⟩ := hmem
  have hg0ne : g0.isEmpty = false := by
    cases g0 with
    | nil => cases hrg0
    | cons c cs => rfl
  have hgroups : (writeAll (initParquet cap k0 k1) batches).groups =
      batches.filter (fun b => !b.isEmpty) := by
    rw [writeAll_groups]
    rfl
  have hg0 : g0 ∈ (writeAll (initParquet cap k0 k1) batches).groups := by
    rw [hgroups]
    exact List.mem_filter.mpr ⟨hg0b, by rw [hg0ne]; rfl⟩
  have hgE : (writeAll (initParquet cap k0 k1) batches).groups.isEmpty = false := by
    cases hgg : (writeAll (initParquet cap k0 k1) batches).groups with
    | nil => rw [hgg] at hg0; cases hg0
    | cons c cs => rfl
  have hfin : finishFile (writeAll (initParquet cap k0 k1) batches) =
      some ⟨(writeAll (initParquet cap k0 k1) batches).groups,
        buildMeta (writeAll (initParquet cap k0 k1) batches).stats⟩ := by
    rw [finishFile, hgE]
    rfl
  have hrlen : r.hash.length = L := hlen g0 hg0b r hrg0
  have hpreflen : (r.hash.take k).length = k := by
    rw [List.length_take]
    omega
  have hwf : BloomWF (writeAll (initParquet cap k0 k1) batches).stats.bloom :=
    writeAll_bloomWF _ _ (initParquet_bloomWF cap k0 k1)
  have hgatepass : bloomGatePass
      (buildMeta (writeAll (initParquet cap k0 k1) batches).stats)
      (r.hash.take k) = true := by
    rw [bloomGatePass]
    by_cases hfl : isFullHashLength ((r.hash.take k).length) = true
    · rw [if_pos hfl]
      rcases hgate with rfl | hf
      · have htake : r.hash.take k = r.hash := by
          rw [← hrlen]
          exact List.take_length r.hash
        by_cases hc : (writeAll (initParquet cap k0 k1) batches).stats.totalRecords
            < 4294967296
        · rw [loadBloom_buildMeta _ hwf hc, htake]
          refine writeAll_bloomCheck _ _ ?_ g0 hg0 r hrg0
          intro g hg
          cases hg
        · rw [loadBloom_buildMeta_none _ hwf hc]
      · rw [hpreflen, hf] at hfl
        cases hfl
    · rw [if_neg hfl]
  have hinc : includeGroup (r.hash.take k) g0 = true := by
    rw [includeGroup]
    cases hstats : rgStats g0 with
    | none => rfl
    | some mm =>
      obtain ⟨mn, mx⟩ := mm
      obtain ⟨hbounds, hmxmem⟩ := rgStats_bounds hstats
      obtain ⟨hmn, hmx⟩ := hbounds r hrg0
      obtain ⟨s, hsg, hshash⟩ := List.mem_map.mp hmxmem
      have hmxlen : mx.length = L := by
        rw [← hshash]
        exact hlen g0 hg0b s hsg
      refine might_be_in_range_of_bounds (hbytes g0 hg0b r hrg0) hmn hmx
        (startsWithBytes_take k r.hash) ?_
      rw [hmxlen, hrlen, hpreflen]
      omega
  have hginc : g0 ∈ (writeAll (initParquet cap k0 k1) batches).groups.filter
      (fun g => includeGroup (r.hash.take k) g) :=
    List.mem_filter.mpr ⟨hg0, hinc⟩
  have hfne : ((writeAll (initParquet cap k0 k1) batches).groups.filter
      (fun g => includeGroup (r.hash.take k) g)).isEmpty = false := by
    cases hcc : (writeAll (initParquet cap k0 k1) batches).groups.filter
        (fun g => includeGroup (r.hash.take k) g) with
    | nil => rw [hcc] at hginc; cases hginc
    | cons c cs => rfl
  rw [hfin, queryFile]
  simp only [hgatepass, Bool.true_eq_false, if_false, hfne, Bool.false_eq_true]
  rw [scanRows_no_limit]
  simp only [List.nil_append]
  refine List.mem_filter.mpr ⟨List.mem_flatten_of_mem hginc hrg0, ?_⟩
  simp [startsWithBytes_take, algoMatch]

theorem C1_amended_query_contains_witness :
    ((∃ g ∈ ([[⟨[0, 1], "a", "md5", ["s"]⟩]] : List (List HashRecord)),
          (⟨[0, 1], "a", "md5", ["s"]⟩ : HashRecord) ∈ g) ∧
        (∀ g ∈ ([[⟨[0, 1], "a", "md5", ["s"]⟩]] : List (List HashRecord)),
          ∀ s ∈ g, s.hash.length = 2) ∧
        (∀ g ∈ ([[⟨[0, 1], "a", "md5", ["s"]⟩]] : List (List HashRecord)),
          ∀ s ∈ g, ∀ b ∈ s.hash, b ≤ 255) ∧
        1 ≤ 1 ∧ 1 ≤ 2 ∧ (1 = 2 ∨ isFullHashLength 1 = false)) ∧
      (⟨[0, 1], "a", "md5", ["s"]⟩ : HashRecord) ∈
        queryFile (finishFile (writeAll (initParquet 0 (0, 0) (0, 0))
            [[⟨[0, 1], "a", "md5", ["s"]⟩]]))
          ((⟨[0, 1], "a", "md5", ["s"]⟩ : HashRecord).hash.take 1) none none :=
  ⟨⟨by decide, by decide, by decide, by decide, by decide, Or.inr (by decide)⟩,
    C1_amended_query_contains 0 (0, 0) (0, 0) [[⟨[0, 1], "a", "md5", ["s"]⟩]]
      ⟨[0, 1], "a", "md5", ["s"]⟩ 2 1 (by decide) (by decide) (by decide)
      (by decide) (by decide) (Or.inr (by decide))⟩

end Shaha
